import Mathlib

/-
Verification development for the `consistent` package: a consistent-hashing
ring with bounded loads (hash ring + load-capped partition distribution).

Modelling conventions for the shallow embedding:
* Go byte slices are `List Nat` (one `Nat` per byte); converting a Go string
  to bytes is modelled by its character codes (`strBytes`), which separates
  equal/unequal strings exactly as Go's `[]byte` conversion does.
* The caller-supplied `Hasher.Sum64` is an abstract total function
  `Bytes → Nat`; no arithmetic other than comparison, equality and `%` is
  performed on hash values, so `Nat` models `uint64` faithfully here.
* Go `map` values are association lists with overwrite-on-insert
  (`mapInsert`) and lookup of the unique live binding (`mapGet`).
* Go `float64` loads are partition counters incremented by 1, modelled as
  `Nat`; the `float64` load factor is modelled as a rational `ℚ`, and
  `math.Ceil(float64(P/uint64(m)) * F)` as the exact integer
  `avgLoadCap` (the Go expression `c.partitionCount/uint64(len(c.members))`
  is integer division, kept as `Nat` division here).
* A Go runtime panic (capacity exhaustion, division or modulo by zero,
  nil-pointer dereference, index out of range) is modelled as `none` /
  `Except.error`; `Add`/`Remove` return `Except.error s` carrying the state
  `s` the in-place mutation has produced at the moment of the panic.
* `sort.Slice` ascending on `uint64` is `List.insertionSort (· ≤ ·)`
  (sorted permutations of `Nat` lists are unique, so any correct sort
  produces the same list), and `sort.Search` over the ascending sorted set
  with predicate `sortedSet[i] >= key` is the first index satisfying it
  (`searchGE`).
-/

/-- Byte strings handed to the hasher. -/
abbrev Bytes := List Nat

/-- Bytes of a Go string (character codes; injective, like Go's `[]byte`). -/
def strBytes (s : String) : Bytes := s.data.map Char.toNat

/-- The 8-byte little-endian encoding of a partition id,
`binary.LittleEndian.PutUint64`. -/
def leBytes8 (n : Nat) : Bytes := (List.range 8).map (fun i => n / 256 ^ i % 256)

/-- Configuration: hasher, partition count `P`, replication factor `R`,
load factor `F`. The Go `Hasher` interface is the function itself. -/
structure Config where
  hasher : Bytes → Nat
  partitionCount : Nat
  replicationFactor : Nat
  loadFactor : ℚ

/-- The `Consistent` struct: ring membership state plus the cached
partition table and load map. -/
structure Consistent where
  config : Config
  hasher : Bytes → Nat
  sortedSet : List Nat
  partitionCount : Nat
  loads : List (String × Nat)
  members : List String
  partitions : List (Nat × String)
  ring : List (Nat × String)

/-- Lookup in a Go map modelled as an association list. -/
def mapGet {α β : Type} [DecidableEq α] (l : List (α × β)) (k : α) : Option β :=
  (l.find? (fun p => decide (p.1 = k))).map (fun p => p.2)

/-- Insert (overwrite) in a Go map modelled as an association list. -/
def mapInsert {α β : Type} [DecidableEq α] (l : List (α × β)) (k : α) (v : β) :
    List (α × β) :=
  (k, v) :: l.filter (fun p => !(decide (p.1 = k)))

/-- Delete from a Go map modelled as an association list. -/
def mapErase {α β : Type} [DecidableEq α] (l : List (α × β)) (k : α) :
    List (α × β) :=
  l.filter (fun p => !(decide (p.1 = k)))

/-- Reading `loads[name]` (a missing key reads as zero in Go). -/
def getLoad (l : List (String × Nat)) (name : String) : Nat :=
  (mapGet l name).getD 0

/-- The `loads[member.Name()]++` step. -/
def bumpLoad (l : List (String × Nat)) (name : String) : List (String × Nat) :=
  mapInsert l name (getLoad l name + 1)

/-- Number of partitions mapped to `name` in a partition table. -/
def countOwned (parts : List (Nat × String)) (name : String) : Nat :=
  (parts.filter (fun p => decide (p.2 = name))).length

/-- The member registry update `c.members[member.Name()] = &member`
(key set semantics of overwrite). -/
def memberAdd (l : List String) (name : String) : List String :=
  if name ∈ l then l else name :: l

/-- The capacity cap computed by `AverageLoad`:
`math.Ceil(float64(P/uint64(m)) * F)`, i.e. `⌈(P / m : ℕ) * F⌉` with the
inner division being integer division, written with integer arithmetic so
that it evaluates by kernel reduction (`avgLoadCap_eq` relates it to `⌈⌉`). -/
def avgLoadCap (p m : Nat) (f : ℚ) : ℤ :=
  -(-(((p / m : Nat) : ℤ) * f.num) / (f.den : ℤ))

/-- `AverageLoad`: `none` models the Go division-by-zero panic when the
member set is empty. -/
def AverageLoad (c : Consistent) : Option ℤ :=
  if c.members.length = 0 then none
  else some (avgLoadCap c.partitionCount c.members.length c.config.loadFactor)

/-- `sort.Search(len(s), fun i => s[i] >= key)` on the ascending sorted set:
first index whose element is `≥ key`, or the length when none is. -/
def searchGE (l : List Nat) (key : Nat) : Nat :=
  l.findIdx (fun x => decide (key ≤ x))

/-- The loop body of `distributeWithLoad`. The Go loop increments a counter
and panics when it reaches `len(sortedSet)`; an iteration entered with
pre-increment counter value `count` panics iff `len(sortedSet) ≤ count + 1`,
so with `fuel := len(sortedSet) - 1 - count` the loop visits a ring point
exactly while `fuel > 0` and the capacity panic is the `fuel = 0` case.
The walk therefore visits at most `len(sortedSet) - 1` points. A `none`
result models a panic (capacity exhaustion, index out of range, or nil ring
entry). -/
def dwlAux (ss : List Nat) (ring : List (Nat × String)) (avg : ℤ)
    (partID : Nat) (parts : List (Nat × String)) (loads : List (String × Nat))
    (idx : Nat) :
    Nat → Option (List (Nat × String) × List (String × Nat))
  | 0 => none
  | fuel + 1 =>
    match ss.get? idx with
    | none => none
    | some pt =>
      match mapGet ring pt with
      | none => none
      | some name =>
        if (getLoad loads name : ℤ) + 1 ≤ avg then
          some (mapInsert parts partID name, bumpLoad loads name)
        else
          dwlAux ss ring avg partID parts loads
            (if ss.length ≤ idx + 1 then 0 else idx + 1) fuel

/-- `distributeWithLoad`: computes the average-load cap (panicking when the
member set is empty) and walks the ring from `idx`; the Go counter starts
at zero, so the walk's budget is `len(sortedSet) - 1` visits. -/
def distributeWithLoad (c : Consistent) (partID idx : Nat)
    (parts : List (Nat × String)) (loads : List (String × Nat)) :
    Option (List (Nat × String) × List (String × Nat)) :=
  match AverageLoad c with
  | none => none
  | some avg => dwlAux c.sortedSet c.ring avg partID parts loads idx
      (c.sortedSet.length - 1)

/-- One iteration of the `distributePartitions` loop: hash the partition id,
locate the nearest ring index, then walk with load bounding. -/
def distributeStep (c : Consistent)
    (acc : List (Nat × String) × List (String × Nat)) (partID : Nat) :
    Option (List (Nat × String) × List (String × Nat)) :=
  let key := c.hasher (leBytes8 partID)
  let idx0 := searchGE c.sortedSet key
  let idx := if c.sortedSet.length ≤ idx0 then 0 else idx0
  distributeWithLoad c partID idx acc.1 acc.2

/-- The whole distribution pass producing the fresh table and load map. -/
def distributeAll (c : Consistent) :
    Option (List (Nat × String) × List (String × Nat)) :=
  (List.range c.partitionCount).foldlM (distributeStep c) ([], [])

/-- `distributePartitions`: on success the fresh table and load map are
installed as a unit; `none` models the pass panicking. -/
def distributePartitions (c : Consistent) : Option Consistent :=
  (distributeAll c).map (fun acc => { c with partitions := acc.1, loads := acc.2 })

/-- The `R` virtual ring points of a member, hashes of `name ++ i`. -/
def memberPoints (c : Consistent) (name : String) : List Nat :=
  (List.range c.config.replicationFactor).map
    (fun i => c.hasher (strBytes (name ++ toString i)))

/-- The internal `add`: insert the `R` ring points, append them to the
sorted set and re-sort it, register the member. -/
def addRaw (c : Consistent) (name : String) : Consistent :=
  { c with
    ring := (memberPoints c name).foldl (fun r h => mapInsert r h name) c.ring
    sortedSet := List.insertionSort (· ≤ ·) (c.sortedSet ++ memberPoints c name)
    members := memberAdd c.members name }

/-- The `delSlice` compaction loop, including its index behaviour after a
removal (the Go loop increments `i` even after deleting at `i`). The loop
exits when `i ≥ len(l)`; since `len(l) - i` shrinks on every iteration,
running it on a fuel that starts at `len(l)` is exact: fuel runs out only
when `i ≥ len(l)` already holds. -/
def delSliceAux (val : Nat) : List Nat → Nat → Nat → List Nat
  | l, _, 0 => l
  | l, i, fuel + 1 =>
    if h : i < l.length then
      if l.get ⟨i, h⟩ = val then delSliceAux val (l.eraseIdx i) (i + 1) fuel
      else delSliceAux val l (i + 1) fuel
    else l

/-- `delSlice` deletes occurrences of `val` from the sorted set. -/
def delSlice (val : Nat) (l : List Nat) : List Nat := delSliceAux val l 0 l.length

/-- The freshly allocated instance (before any member is added). -/
def emptyInstance (cfg : Config) : Consistent :=
  { config := cfg
    hasher := cfg.hasher
    sortedSet := []
    partitionCount := cfg.partitionCount
    loads := []
    members := []
    partitions := []
    ring := [] }

/-- `New(members, config)`: seeds the ring with the given members and runs
an initial distribution pass exactly when the member slice is non-nil
(`Option.some`, possibly empty). `none` models construction panicking. -/
def New (ms : Option (List String)) (cfg : Config) : Option Consistent :=
  let c1 := (ms.getD []).foldl addRaw (emptyInstance cfg)
  match ms with
  | none => some c1
  | some _ => distributePartitions c1

/-- `Add`: no-op for an already-present name, otherwise ring mutation then a
full redistribution. On a distribution panic the result is `Except.error`
carrying the state as mutated in place up to the panic (ring updated,
previous table still installed). -/
def AddMember (c : Consistent) (m : String) : Except Consistent Consistent :=
  if m ∈ c.members then .ok c
  else
    match distributePartitions (addRaw c m) with
    | some c2 => .ok c2
    | none => .error (addRaw c m)

/-- State after `Remove`'s ring/registry mutation (before redistribution). -/
def removeRaw (c : Consistent) (name : String) : Consistent :=
  { c with
    ring := (memberPoints c name).foldl mapErase c.ring
    sortedSet := (memberPoints c name).foldl (fun s h => delSlice h s) c.sortedSet
    members := c.members.filter (fun x => !(decide (x = name))) }

/-- `Remove`: no-op for an unknown name; when the last member is removed the
partition table is reset to empty without redistribution; otherwise a full
redistribution runs, with `Except.error` carrying the state at a panic. -/
def Remove (c : Consistent) (name : String) : Except Consistent Consistent :=
  if name ∈ c.members then
    let c1 := removeRaw c name
    if c1.members.isEmpty then .ok { c1 with partitions := [] }
    else
      match distributePartitions c1 with
      | some c2 => .ok c2
      | none => .error c1
  else .ok c

/-- `FindPartitionID`: `hash(key) % P`; `none` models the Go modulo-by-zero
panic when the partition count is zero. -/
def FindPartitionID (c : Consistent) (key : Bytes) : Option Nat :=
  if c.partitionCount = 0 then none
  else some (c.hasher key % c.partitionCount)

/-- `GetPartitionOwner`: the owner recorded in the table, `none` for the Go
nil member. -/
def GetPartitionOwner (c : Consistent) (partID : Nat) : Option String :=
  mapGet c.partitions partID

/-- `LocateKey`: the outer `none` models the `FindPartitionID` panic, the
inner option is the owner-or-nil result. -/
def LocateKey (c : Consistent) (key : Bytes) : Option (Option String) :=
  (FindPartitionID c key).map (fun partID => GetPartitionOwner c partID)

/-- `GetMembers` returns a snapshot of the registry. -/
def GetMembers (c : Consistent) : List String := c.members

/-- `LoadDistribution` returns a snapshot of the load map. -/
def LoadDistribution (c : Consistent) : List (String × Nat) := c.loads

/-- The backup-collection loop of `GetPartitionBackups`: advance (with
wrap-around), then append the member registered for the key at the new
index; `none` models an index-out-of-range panic. -/
def collectBackups (keys : List Nat) (kmems : List (Nat × String))
    (idx : Nat) : Nat → Option (List String)
  | 0 => some []
  | n + 1 =>
    let idx1 := if keys.length ≤ idx + 1 then 0 else idx + 1
    match keys.get? idx1 with
    | none => none
    | some key =>
      match mapGet kmems key with
      | none => none
      | some name => (collectBackups keys kmems idx1 n).map (fun rest => name :: rest)

/-- The member-identity cycle: identity hash of each member name, sorted
ascending (independent of iteration order since the keys are sorted). -/
def identityKeys (c : Consistent) : List Nat :=
  List.insertionSort (· ≤ ·) (c.members.map (fun name => c.hasher (strBytes name)))

/-- The `kmems` map from identity hash to member. -/
def identityMap (c : Consistent) : List (Nat × String) :=
  c.members.foldl (fun m name => mapInsert m (c.hasher (strBytes name)) name) []

/-- `GetPartitionBackups`: the insufficient-member check runs first (as an
`int` comparison); then the owner is resolved (`none` models the nil
dereference on an unowned partition), the member-identity cycle is built and
walked from the owner's position. -/
def GetPartitionBackups (c : Consistent) (partID backupCount : Nat) :
    Option (Except Unit (List String)) :=
  if (backupCount : ℤ) > (c.members.length : ℤ) - 1 then some (.error ())
  else
    match GetPartitionOwner c partID with
    | none => none
    | some ownerName =>
      let ownerKey := if ownerName ∈ c.members
        then c.hasher (strBytes ownerName) else 0
      let keys := identityKeys c
      let idx := keys.findIdx (fun k => decide (k = ownerKey))
      (collectBackups keys (identityMap c) idx backupCount).map .ok

deriving instance DecidableEq for Except

/-- States reachable through the public interface: a successful
construction followed by successful `Add`/`Remove` calls. -/
inductive Reachable : Consistent → Prop
  | new (ms : Option (List String)) (cfg : Config) (c : Consistent) :
      New ms cfg = some c → Reachable c
  | add (c c' : Consistent) (m : String) :
      Reachable c → AddMember c m = .ok c' → Reachable c'
  | remove (c c' : Consistent) (name : String) :
      Reachable c → Remove c name = .ok c' → Reachable c'

/-- Projection of an `Except` mutation result onto the resulting state
(both for a completed and for an aborted mutation). -/
def exceptState : Except Consistent Consistent → Consistent
  | .ok c => c
  | .error c => c

/-- A lookup-table hasher used for the concrete test instances (inputs not
in the table hash to 0). -/
def hashTable (assoc : List (Bytes × Nat)) : Bytes → Nat :=
  fun bs => (mapGet assoc bs).getD 0

theorem mapGet_nil {α β : Type} [DecidableEq α] (k : α) :
    mapGet ([] : List (α × β)) k = none := rfl

theorem mapGet_cons {α β : Type} [DecidableEq α] (p : α × β) (l : List (α × β))
    (k : α) :
    mapGet (p :: l) k = if p.1 = k then some p.2 else mapGet l k := by
  by_cases h : p.1 = k <;> simp [mapGet, List.find?, h]

theorem mapErase_cons {α β : Type} [DecidableEq α] (p : α × β)
    (l : List (α × β)) (k : α) :
    mapErase (p :: l) k
      = if p.1 = k then mapErase l k else p :: mapErase l k := by
  by_cases h : p.1 = k <;> simp [mapErase, List.filter_cons, h]

theorem mapGet_erase {α β : Type} [DecidableEq α] (l : List (α × β)) (k k' : α) :
    mapGet (mapErase l k) k' = if k' = k then none else mapGet l k' := by
  induction l with
  | nil => simp [mapGet, mapErase]
  | cons p t ih =>
    rw [mapErase_cons]
    by_cases hpk : p.1 = k
    · rw [if_pos hpk, ih]
      by_cases hk : k' = k
      · rw [if_pos hk, if_pos hk]
      · rw [if_neg hk, if_neg hk, mapGet_cons,
          if_neg (fun hh : p.1 = k' => hk (hh.symm.trans hpk))]
    · rw [if_neg hpk, mapGet_cons, ih, mapGet_cons]
      by_cases hpk' : p.1 = k'
      · rw [if_pos hpk', if_pos hpk',
          if_neg (fun hk : k' = k => hpk (hpk'.trans hk))]
      · rw [if_neg hpk', if_neg hpk']

theorem mapGet_insert {α β : Type} [DecidableEq α] (l : List (α × β)) (k k' : α)
    (v : β) :
    mapGet (mapInsert l k v) k' = if k' = k then some v else mapGet l k' := by
  have hins : mapInsert l k v = (k, v) :: mapErase l k := rfl
  rw [hins, mapGet_cons]
  by_cases h : k' = k
  · rw [if_pos (h.symm), if_pos h]
  · rw [if_neg (fun hh : k = k' => h hh.symm), if_neg h, mapGet_erase, if_neg h]

theorem mapGet_eq_none_iff {α β : Type} [DecidableEq α] (l : List (α × β))
    (k : α) :
    mapGet l k = none ↔ ∀ p ∈ l, p.1 ≠ k := by
  simp [mapGet, List.find?_eq_none]

theorem mapGet_mem {α β : Type} [DecidableEq α] {l : List (α × β)} {k : α}
    {v : β} (h : mapGet l k = some v) : (k, v) ∈ l := by
  unfold mapGet at h
  cases hf : l.find? (fun p => decide (p.1 = k)) with
  | none => rw [hf] at h; simp at h
  | some p =>
    rw [hf] at h
    have hmem := List.mem_of_find?_eq_some hf
    have hp := List.find?_some hf
    obtain ⟨a, b⟩ := p
    simp at hp h
    subst hp h
    exact hmem

theorem mapInsert_of_get_none {α β : Type} [DecidableEq α] {l : List (α × β)}
    {k : α} (v : β) (h : mapGet l k = none) : mapInsert l k v = (k, v) :: l := by
  unfold mapInsert
  rw [List.filter_eq_self.mpr]
  intro p hp
  have := (mapGet_eq_none_iff l k).mp h p hp
  simpa using this

theorem getLoad_bump (l : List (String × Nat)) (a n : String) :
    getLoad (bumpLoad l a) n = if n = a then getLoad l a + 1 else getLoad l n := by
  unfold bumpLoad getLoad
  rw [mapGet_insert]
  by_cases h : n = a <;> simp [h]

theorem countOwned_nil (n : String) : countOwned [] n = 0 := rfl

theorem countOwned_cons (k : Nat) (v : String) (parts : List (Nat × String))
    (n : String) :
    countOwned ((k, v) :: parts) n
      = countOwned parts n + (if v = n then 1 else 0) := by
  by_cases h : v = n <;> simp [countOwned, List.filter_cons, h]

theorem avgLoadCap_eq (p m : Nat) (f : ℚ) :
    avgLoadCap p m f = ⌈((p / m : Nat) : ℚ) * f⌉ := by
  unfold avgLoadCap
  generalize p / m = n
  have hfd : ((f.den : ℕ) : ℚ) ≠ 0 := Nat.cast_ne_zero.mpr f.den_nz
  have hfrac := Rat.num_div_den f
  have hmul : f * ((f.den : ℕ) : ℚ) = ((f.num : ℤ) : ℚ) := by
    calc f * ((f.den : ℕ) : ℚ)
        = ((f.num : ℚ) / (f.den : ℚ)) * ((f.den : ℕ) : ℚ) := by rw [hfrac]
      _ = ((f.num : ℤ) : ℚ) := div_mul_cancel₀ _ hfd
  have hx : -(((n : ℕ) : ℚ) * f)
      = (((-(((n : ℕ) : ℤ) * f.num)) : ℤ) : ℚ) / ((f.den : ℕ) : ℚ) := by
    rw [eq_div_iff hfd]
    push_cast
    calc -(((n : ℕ) : ℚ) * f) * ((f.den : ℕ) : ℚ)
        = -(((n : ℕ) : ℚ) * (f * ((f.den : ℕ) : ℚ))) := by ring
      _ = -(((n : ℕ) : ℚ) * ((f.num : ℤ) : ℚ)) := by rw [hmul]
      _ = -(((n : ℕ) : ℚ) * (f.num : ℚ)) := rfl
  have h2 : ⌊-(((n : ℕ) : ℚ) * f)⌋
      = (-(((n : ℕ) : ℤ) * f.num)) / (f.den : ℤ) := by
    rw [hx, Rat.floor_intCast_div_natCast]
  have h3 : ⌊-(((n : ℕ) : ℚ) * f)⌋ = -⌈((n : ℕ) : ℚ) * f⌉ := Int.floor_neg
  omega

theorem dwlAux_some_spec (ss : List Nat) (ring : List (Nat × String)) (avg : ℤ)
    (partID : Nat) :
    ∀ (fuel idx : Nat) (parts parts' : List (Nat × String))
      (loads loads' : List (String × Nat)),
      dwlAux ss ring avg partID parts loads idx fuel = some (parts', loads') →
      ∃ name pt, mapGet ring pt = some name ∧
        (getLoad loads name : ℤ) + 1 ≤ avg ∧
        parts' = mapInsert parts partID name ∧ loads' = bumpLoad loads name := by
  intro fuel
  induction fuel with
  | zero =>
    intro idx parts parts' loads loads' h
    simp [dwlAux] at h
  | succ fuel ih =>
    intro idx parts parts' loads loads' h
    rw [dwlAux] at h
    cases hget : ss.get? idx with
    | none => rw [hget] at h; simp at h
    | some pt =>
      rw [hget] at h
      dsimp only at h
      cases hr : mapGet ring pt with
      | none => rw [hr] at h; simp at h
      | some name =>
        rw [hr] at h
        dsimp only at h
        by_cases hc : (getLoad loads name : ℤ) + 1 ≤ avg
        · rw [if_pos hc] at h
          simp only [Option.some.injEq, Prod.mk.injEq] at h
          exact ⟨name, pt, hr, hc, h.1.symm, h.2.symm⟩
        · rw [if_neg hc] at h
          exact ih _ parts parts' loads loads' h

theorem dwlAux_none_spec (ss : List Nat) (ring : List (Nat × String)) (avg : ℤ)
    (partID : Nat)
    (hring : ∀ pt ∈ ss, (mapGet ring pt).isSome) :
    ∀ (fuel idx : Nat) (parts : List (Nat × String))
      (loads : List (String × Nat)),
      idx < ss.length →
      dwlAux ss ring avg partID parts loads idx fuel = none →
      ∀ k < fuel, ∀ name,
        mapGet ring (ss.getD ((idx + k) % ss.length) 0) = some name →
        avg < (getLoad loads name : ℤ) + 1 := by
  intro fuel
  induction fuel with
  | zero =>
    intro idx parts loads hidx h k hk
    omega
  | succ fuel ih =>
    intro idx parts loads hidx h k hk name hname
    rw [dwlAux] at h
    have hget : ss.get? idx = some (ss.get ⟨idx, hidx⟩) := List.get?_eq_get hidx
    rw [hget] at h
    dsimp only at h
    have hmem : ss.get ⟨idx, hidx⟩ ∈ ss := List.get_mem ss idx hidx
    cases hr : mapGet ring (ss.get ⟨idx, hidx⟩) with
    | none => exact absurd (hring _ hmem) (by rw [hr]; simp)
    | some name0 =>
      rw [hr] at h
      dsimp only at h
      by_cases hc : (getLoad loads name0 : ℤ) + 1 ≤ avg
      · rw [if_pos hc] at h; simp at h
      · rw [if_neg hc] at h
        cases k with
        | zero =>
          have hpos : (idx + 0) % ss.length = idx := by
            simp [Nat.mod_eq_of_lt hidx]
          have hgetd : ss.getD ((idx + 0) % ss.length) 0 = ss.get ⟨idx, hidx⟩ := by
            rw [hpos, List.getD_eq_getElem?_getD, List.getElem?_eq_getElem hidx]
            rfl
          rw [hgetd, hr] at hname
          cases hname
          omega
        | succ k =>
          have hlen : 0 < ss.length := by omega
          have hidx1 : (if ss.length ≤ idx + 1 then 0 else idx + 1) < ss.length := by
            by_cases hb : ss.length ≤ idx + 1
            · rw [if_pos hb]; omega
            · rw [if_neg hb]; omega
          have hidxmod : (if ss.length ≤ idx + 1 then 0 else idx + 1)
              = (idx + 1) % ss.length := by
            by_cases hb : ss.length ≤ idx + 1
            · rw [if_pos hb]
              have : idx + 1 = ss.length := by omega
              rw [this, Nat.mod_self]
            · rw [if_neg hb, Nat.mod_eq_of_lt (by omega)]
          have := ih _ parts loads hidx1 h k (by omega) name
          apply this
          rw [hidxmod, Nat.mod_add_mod]
          have harith : idx + 1 + k = idx + (k + 1) := by omega
          rw [harith]
          exact hname

theorem distributeWithLoad_some (c : Consistent) (partID idx : Nat)
    (parts parts' : List (Nat × String)) (loads loads' : List (String × Nat))
    (h : distributeWithLoad c partID idx parts loads = some (parts', loads')) :
    c.members ≠ [] ∧
    ∃ name pt, mapGet c.ring pt = some name ∧
      (getLoad loads name : ℤ) + 1
        ≤ avgLoadCap c.partitionCount c.members.length c.config.loadFactor ∧
      parts' = mapInsert parts partID name ∧ loads' = bumpLoad loads name := by
  unfold distributeWithLoad AverageLoad at h
  by_cases hm : c.members.length = 0
  · rw [if_pos hm] at h; simp at h
  · rw [if_neg hm] at h
    refine ⟨fun hh => hm (by simp [hh]), ?_⟩
    exact dwlAux_some_spec _ _ _ _ _ _ _ _ _ _ h

theorem distributeStep_some (c : Consistent)
    (acc : List (Nat × String) × List (String × Nat)) (partID : Nat)
    (parts' : List (Nat × String)) (loads' : List (String × Nat))
    (h : distributeStep c acc partID = some (parts', loads')) :
    c.members ≠ [] ∧
    ∃ name pt, mapGet c.ring pt = some name ∧
      (getLoad acc.2 name : ℤ) + 1
        ≤ avgLoadCap c.partitionCount c.members.length c.config.loadFactor ∧
      parts' = mapInsert acc.1 partID name ∧ loads' = bumpLoad acc.2 name :=
  distributeWithLoad_some c partID _ acc.1 parts' acc.2 loads' h

theorem getLoad_nil (n : String) : getLoad [] n = 0 := rfl

theorem sum_map_bump (l : List String) (loads : List (String × Nat)) (a : String)
    (hnd : l.Nodup) (ha : a ∈ l) :
    (l.map (fun n => getLoad (bumpLoad loads a) n)).sum
      = (l.map (fun n => getLoad loads n)).sum + 1 := by
  induction l with
  | nil => cases ha
  | cons x t ih =>
    rw [List.map_cons, List.map_cons, List.sum_cons, List.sum_cons]
    rcases List.mem_cons.mp ha with hxa | hat
    · cases hxa
      have hnotin : a ∉ t := (List.nodup_cons.mp hnd).1
      rw [getLoad_bump, if_pos rfl]
      have ht : t.map (fun n => getLoad (bumpLoad loads a) n)
          = t.map (fun n => getLoad loads n) := by
        apply List.map_congr_left
        intro n hn
        rw [getLoad_bump, if_neg (fun hh : n = a => hnotin (hh ▸ hn))]
      rw [ht]
      omega
    · have hxa : x ≠ a := by
        intro hh
        exact (List.nodup_cons.mp hnd).1 (hh ▸ hat)
      rw [getLoad_bump, if_neg hxa, ih (List.nodup_cons.mp hnd).2 hat]
      omega

/-- The invariant carried through the partition loop of
`distributePartitions`: after the first `k` partitions have been placed, the
fresh table is total exactly on `[0, k)`, owners are members, the load map
counts table entries, loads sum to `k`, and every load respects the cap. -/
def stepInv (c : Consistent) (k : Nat) (parts : List (Nat × String))
    (loads : List (String × Nat)) : Prop :=
  (∀ i, (mapGet parts i).isSome ↔ i < k) ∧
  (∀ i n, mapGet parts i = some n → n ∈ c.members) ∧
  (∀ n, getLoad loads n = countOwned parts n) ∧
  ((c.members.map (fun n => getLoad loads n)).sum = k) ∧
  (∀ n, (getLoad loads n : ℤ)
      ≤ max (avgLoadCap c.partitionCount c.members.length c.config.loadFactor) 0)

theorem distributeAll_inv (c : Consistent) (hnd : c.members.Nodup)
    (hring : ∀ h n, mapGet c.ring h = some n → n ∈ c.members) :
    ∀ (k : Nat) (parts : List (Nat × String)) (loads : List (String × Nat)),
      (List.range k).foldlM (distributeStep c) (([], []) :
          List (Nat × String) × List (String × Nat)) = some (parts, loads) →
      stepInv c k parts loads := by
  intro k
  induction k with
  | zero =>
    intro parts loads h
    simp only [List.range_zero, List.foldlM_nil, pure, Option.some.injEq,
      Prod.mk.injEq] at h
    obtain ⟨h1, h2⟩ := h
    subst h1
    subst h2
    refine ⟨?_, ?_, ?_, ?_, ?_⟩
    · intro i; simp [mapGet]
    · intro i n h; simp [mapGet] at h
    · intro n; rfl
    · apply List.sum_eq_zero
      intro x hx
      rcases List.mem_map.mp hx with ⟨n, _, hn⟩
      exact hn ▸ rfl
    · intro n
      simp [getLoad_nil]
  | succ k ih =>
    intro parts loads h
    rw [List.range_succ, List.foldlM_append] at h
    rcases hmid : (List.range k).foldlM (distributeStep c)
        (([], []) : List (Nat × String) × List (String × Nat)) with _ | mid
    · rw [hmid] at h
      simp at h
    · rw [hmid] at h
      obtain ⟨parts0, loads0⟩ := mid
      simp only [List.foldlM_cons, List.foldlM_nil, bind, Option.bind] at h
      rcases hstep : distributeStep c (parts0, loads0) k with _ | res
      · rw [hstep] at h; simp at h
      · rw [hstep] at h
        simp only [pure, Option.some.injEq] at h
        subst h
        obtain ⟨hinv1, hinv2, hinv3, hinv4, hinv5⟩ := ih parts0 loads0 hmid
        obtain ⟨hne, name, pt, hrn, hcap, hparts, hloads⟩ :=
          distributeStep_some c (parts0, loads0) k parts loads hstep
        simp only at hcap hparts hloads
        have hk0 : mapGet parts0 k = none := by
          by_contra hne2
          have hs : (mapGet parts0 k).isSome = true :=
            Option.isSome_iff_ne_none.mpr hne2
          have := (hinv1 k).mp hs
          omega
        have hmemname : name ∈ c.members := hring pt name hrn
        rw [hparts, hloads]
        refine ⟨?_, ?_, ?_, ?_, ?_⟩
        · intro i
          rw [mapGet_insert]
          by_cases hik : i = k
          · subst hik; simp
          · rw [if_neg hik]
            rw [hinv1 i]
            omega
        · intro i n hg
          rw [mapGet_insert] at hg
          by_cases hik : i = k
          · rw [if_pos hik] at hg
            cases hg
            exact hmemname
          · rw [if_neg hik] at hg
            exact hinv2 i n hg
        · intro n
          rw [mapInsert_of_get_none name hk0, countOwned_cons, getLoad_bump]
          by_cases hn : n = name
          · subst hn
            rw [if_pos rfl, if_pos rfl, hinv3 n]
          · rw [if_neg hn, if_neg (fun hh : name = n => hn hh.symm), hinv3 n]
            omega
        · rw [sum_map_bump c.members loads0 name hnd hmemname, hinv4]
        · intro n
          rw [getLoad_bump]
          by_cases hn : n = name
          · subst hn
            rw [if_pos rfl]
            push_cast
            exact le_trans hcap (le_max_left _ _)
          · rw [if_neg hn]
            exact hinv5 n

theorem distributePartitions_some (c c' : Consistent)
    (h : distributePartitions c = some c') :
    distributeAll c = some (c'.partitions, c'.loads) ∧
    c'.config = c.config ∧ c'.hasher = c.hasher ∧ c'.sortedSet = c.sortedSet ∧
    c'.partitionCount = c.partitionCount ∧ c'.members = c.members ∧
    c'.ring = c.ring := by
  unfold distributePartitions at h
  rcases ha : distributeAll c with _ | acc
  · rw [ha] at h; simp at h
  · rw [ha] at h
    simp only [Option.map_some', Option.some.injEq] at h
    subst h
    refine ⟨?_, rfl, rfl, rfl, rfl, rfl, rfl⟩
    rfl

theorem parts_nil_of_all_none (parts : List (Nat × String))
    (h : ∀ i, mapGet parts i = none) : parts = [] := by
  cases parts with
  | nil => rfl
  | cons p t =>
    have hp := h p.1
    rw [mapGet_cons, if_pos rfl] at hp
    cases hp

theorem avgLoadCap_zero (m : Nat) (f : ℚ) : avgLoadCap 0 m f = 0 := by
  simp [avgLoadCap]

theorem distributePartitions_inv (c c' : Consistent) (hnd : c.members.Nodup)
    (hring2 : ∀ k n, mapGet c.ring k = some n → n ∈ c.members)
    (h : distributePartitions c = some c') :
    (∀ i, (mapGet c'.partitions i).isSome ↔ i < c.partitionCount) ∧
    (∀ i n, mapGet c'.partitions i = some n → n ∈ c.members) ∧
    (∀ n, getLoad c'.loads n = countOwned c'.partitions n) ∧
    ((c.members.map (fun n => getLoad c'.loads n)).sum = c.partitionCount) ∧
    (∀ n, (getLoad c'.loads n : ℤ)
        ≤ avgLoadCap c.partitionCount c.members.length c.config.loadFactor) := by
  obtain ⟨hall, _, _, _, _, _, _⟩ := distributePartitions_some c c' h
  obtain ⟨h1, h2, h3, h4, h5⟩ :=
    distributeAll_inv c hnd hring2 c.partitionCount _ _ hall
  refine ⟨h1, h2, h3, h4, ?_⟩
  intro n
  by_cases hP : c.partitionCount = 0
  · have hnone : ∀ i, mapGet c'.partitions i = none := by
      intro i
      apply Option.not_isSome_iff_eq_none.mp
      intro hs
      have := (h1 i).mp hs
      omega
    have hz : getLoad c'.loads n = 0 := by
      rw [h3 n, parts_nil_of_all_none _ hnone, countOwned_nil]
    rw [hz, hP, avgLoadCap_zero]
    simp
  · have hex : ∃ x ∈ c.members.map (fun n => getLoad c'.loads n), x ≠ 0 := by
      by_contra hno
      push_neg at hno
      have := List.sum_eq_zero hno
      rw [h4] at this
      exact hP this
    obtain ⟨x, hxmem, hx0⟩ := hex
    rcases List.mem_map.mp hxmem with ⟨n0, _, hxn⟩
    rcases le_or_lt
        (avgLoadCap c.partitionCount c.members.length c.config.loadFactor) 0
        with hA | hA
    · exfalso
      have h5n0 := h5 n0
      rw [max_eq_right hA, hxn] at h5n0
      omega
    · have h5n := h5 n
      rw [max_eq_left (le_of_lt hA)] at h5n
      exact h5n

theorem mem_memberAdd (l : List String) (name x : String) :
    x ∈ memberAdd l name ↔ x = name ∨ x ∈ l := by
  unfold memberAdd
  by_cases h : name ∈ l
  · rw [if_pos h]
    constructor
    · exact Or.inr
    · rintro (rfl | hx)
      · exact h
      · exact hx
  · rw [if_neg h]
    exact List.mem_cons

theorem memberAdd_nodup (l : List String) (name : String) (h : l.Nodup) :
    (memberAdd l name).Nodup := by
  unfold memberAdd
  by_cases hm : name ∈ l
  · rw [if_pos hm]; exact h
  · rw [if_neg hm]; exact List.nodup_cons.mpr ⟨hm, h⟩

theorem memberAdd_ne_nil (l : List String) (name : String) :
    memberAdd l name ≠ [] := by
  unfold memberAdd
  by_cases hm : name ∈ l
  · rw [if_pos hm]
    intro hh
    rw [hh] at hm
    cases hm
  · rw [if_neg hm]
    simp

theorem mapGet_foldl_insert_spec (pts : List Nat) (r0 : List (Nat × String))
    (name : String) (k : Nat) (v : String)
    (h : mapGet (pts.foldl (fun r hh => mapInsert r hh name) r0) k = some v) :
    (v = name ∧ k ∈ pts) ∨ mapGet r0 k = some v := by
  induction pts generalizing r0 with
  | nil => exact Or.inr h
  | cons p t ih =>
    rw [List.foldl_cons] at h
    rcases ih _ h with ⟨h1, h2⟩ | h2
    · exact Or.inl ⟨h1, List.mem_cons_of_mem _ h2⟩
    · rw [mapGet_insert] at h2
      by_cases hk : k = p
      · rw [if_pos hk] at h2
        cases h2
        exact Or.inl ⟨rfl, by rw [hk]; exact List.mem_cons_self _ _⟩
      · rw [if_neg hk] at h2
        exact Or.inr h2

theorem mapGet_foldl_erase (pts : List Nat) (r0 : List (Nat × String)) (k : Nat) :
    mapGet (pts.foldl mapErase r0) k
      = if k ∈ pts then none else mapGet r0 k := by
  induction pts generalizing r0 with
  | nil => simp
  | cons p t ih =>
    rw [List.foldl_cons, ih]
    by_cases hkt : k ∈ t
    · rw [if_pos hkt, if_pos (List.mem_cons_of_mem _ hkt)]
    · rw [if_neg hkt, mapGet_erase]
      by_cases hkp : k = p
      · rw [if_pos hkp, if_pos (by rw [hkp]; exact List.mem_cons_self _ _)]
      · rw [if_neg hkp, if_neg (by
          intro hh
          rcases List.mem_cons.mp hh with h1 | h1
          · exact hkp h1
          · exact hkt h1)]

/-- Ring soundness: every live ring binding maps one of its member's own
virtual points to that member, and that member is registered. -/
def RingInv (c : Consistent) : Prop :=
  ∀ k n, mapGet c.ring k = some n → n ∈ c.members ∧ k ∈ memberPoints c n

theorem memberPoints_addRaw (c : Consistent) (m name : String) :
    memberPoints (addRaw c m) name = memberPoints c name := rfl

theorem memberPoints_removeRaw (c : Consistent) (m name : String) :
    memberPoints (removeRaw c m) name = memberPoints c name := rfl

theorem ringInv_addRaw (c : Consistent) (name : String) (h : RingInv c) :
    RingInv (addRaw c name) := by
  intro k n hg
  rw [memberPoints_addRaw]
  have hg' : mapGet ((memberPoints c name).foldl
      (fun r hh => mapInsert r hh name) c.ring) k = some n := hg
  rcases mapGet_foldl_insert_spec _ _ _ _ _ hg' with ⟨h1, h2⟩ | h2
  · subst h1
    exact ⟨(mem_memberAdd _ _ _).mpr (Or.inl rfl), h2⟩
  · obtain ⟨hm, hk⟩ := h k n h2
    exact ⟨(mem_memberAdd _ _ _).mpr (Or.inr hm), hk⟩

theorem ringInv_removeRaw (c : Consistent) (name : String) (h : RingInv c) :
    RingInv (removeRaw c name) := by
  intro k n hg
  rw [memberPoints_removeRaw]
  have hg' : mapGet ((memberPoints c name).foldl mapErase c.ring) k
      = some n := hg
  rw [mapGet_foldl_erase] at hg'
  by_cases hk : k ∈ memberPoints c name
  · rw [if_pos hk] at hg'; cases hg'
  · rw [if_neg hk] at hg'
    obtain ⟨hm, hkpts⟩ := h k n hg'
    have hne : ¬(n = name) := by
      intro hh
      subst hh
      exact hk hkpts
    refine ⟨?_, hkpts⟩
    show n ∈ c.members.filter (fun x => !(decide (x = name)))
    rw [List.mem_filter]
    exact ⟨hm, by simp [hne]⟩

/-- State invariant established by construction and maintained by every
successful public mutation. -/
def GoodState (c : Consistent) : Prop :=
  c.members.Nodup ∧
  c.partitionCount = c.config.partitionCount ∧
  RingInv c ∧
  (c.members = [] → c.partitions = []) ∧
  (c.members ≠ [] →
    (∀ i, (mapGet c.partitions i).isSome ↔ i < c.partitionCount) ∧
    (∀ i n, mapGet c.partitions i = some n → n ∈ c.members) ∧
    (∀ n, getLoad c.loads n = countOwned c.partitions n) ∧
    ((c.members.map (fun n => getLoad c.loads n)).sum = c.partitionCount) ∧
    (∀ n, (getLoad c.loads n : ℤ)
        ≤ avgLoadCap c.partitionCount c.members.length c.config.loadFactor))

theorem goodState_of_pass (cpre c' : Consistent) (hnd : cpre.members.Nodup)
    (hri : RingInv cpre)
    (hpc : cpre.partitionCount = cpre.config.partitionCount)
    (h : distributePartitions cpre = some c') : GoodState c' := by
  obtain ⟨hall, hcfg, hhash, hss, hpcnt, hmem, hring⟩ :=
    distributePartitions_some cpre c' h
  have hringmem : ∀ k n, mapGet cpre.ring k = some n → n ∈ cpre.members :=
    fun k n hk => (hri k n hk).1
  obtain ⟨h1, h2, h3, h4, h5⟩ := distributePartitions_inv cpre c' hnd hringmem h
  refine ⟨by rw [hmem]; exact hnd, by rw [hpcnt, hcfg]; exact hpc, ?_, ?_, ?_⟩
  · intro k n hk
    rw [hring] at hk
    obtain ⟨hm, hpt⟩ := hri k n hk
    have hmp : memberPoints c' n = memberPoints cpre n := by
      unfold memberPoints
      rw [hcfg, hhash]
    rw [hmem, hmp]
    exact ⟨hm, hpt⟩
  · intro hme
    rw [hmem] at hme
    have hs0 : cpre.partitionCount = 0 := by
      rw [← h4, hme]
      simp
    apply parts_nil_of_all_none
    intro i
    apply Option.not_isSome_iff_eq_none.mp
    intro hsme
    have := (h1 i).mp hsme
    omega
  · intro _
    refine ⟨?_, ?_, h3, ?_, ?_⟩
    · intro i
      rw [hpcnt]
      exact h1 i
    · intro i n hg
      rw [hmem]
      exact h2 i n hg
    · rw [hmem, hpcnt]
      exact h4
    · intro n
      rw [hpcnt, hmem, hcfg]
      exact h5 n

theorem ringInv_emptyInstance (cfg : Config) : RingInv (emptyInstance cfg) := by
  intro k n hk
  have hk2 : mapGet ([] : List (Nat × String)) k = some n := hk
  rw [mapGet_nil] at hk2
  cases hk2

theorem goodState_emptyInstance (cfg : Config) : GoodState (emptyInstance cfg) :=
  ⟨List.nodup_nil, rfl, ringInv_emptyInstance cfg, fun _ => rfl,
    fun hme => absurd rfl hme⟩

theorem foldl_addRaw_static (ms : List String) (c : Consistent)
    (h1 : c.members.Nodup) (h2 : RingInv c)
    (h3 : c.partitionCount = c.config.partitionCount) :
    (ms.foldl addRaw c).members.Nodup ∧ RingInv (ms.foldl addRaw c) ∧
    (ms.foldl addRaw c).partitionCount
      = (ms.foldl addRaw c).config.partitionCount := by
  induction ms generalizing c with
  | nil => exact ⟨h1, h2, h3⟩
  | cons m t ih =>
    rw [List.foldl_cons]
    exact ih (addRaw c m) (memberAdd_nodup _ _ h1) (ringInv_addRaw c m h2) h3

theorem addMember_ok_inv (c c' : Consistent) (m : String)
    (h : AddMember c m = .ok c') :
    (m ∈ c.members ∧ c' = c) ∨
    (m ∉ c.members ∧ distributePartitions (addRaw c m) = some c') := by
  unfold AddMember at h
  by_cases hm : m ∈ c.members
  · rw [if_pos hm] at h
    cases h
    exact Or.inl ⟨hm, rfl⟩
  · rw [if_neg hm] at h
    rcases hd : distributePartitions (addRaw c m) with _ | c2
    · rw [hd] at h
      dsimp only at h
      cases h
    · rw [hd] at h
      dsimp only at h
      cases h
      exact Or.inr ⟨hm, rfl⟩

theorem addMember_error_inv (c ce : Consistent) (m : String)
    (h : AddMember c m = .error ce) :
    m ∉ c.members ∧ distributePartitions (addRaw c m) = none ∧
    ce = addRaw c m := by
  unfold AddMember at h
  by_cases hm : m ∈ c.members
  · rw [if_pos hm] at h
    cases h
  · rw [if_neg hm] at h
    rcases hd : distributePartitions (addRaw c m) with _ | c2
    · rw [hd] at h
      dsimp only at h
      cases h
      exact ⟨hm, rfl, rfl⟩
    · rw [hd] at h
      dsimp only at h
      cases h

theorem remove_ok_inv (c c' : Consistent) (name : String)
    (h : Remove c name = .ok c') :
    (name ∉ c.members ∧ c' = c) ∨
    (name ∈ c.members ∧ (removeRaw c name).members = [] ∧
      c' = { removeRaw c name with partitions := [] }) ∨
    (name ∈ c.members ∧ (removeRaw c name).members ≠ [] ∧
      distributePartitions (removeRaw c name) = some c') := by
  unfold Remove at h
  by_cases hm : name ∈ c.members
  · rw [if_pos hm] at h
    dsimp only at h
    by_cases hemp : (removeRaw c name).members = []
    · have hb : (removeRaw c name).members.isEmpty = true := by
        rw [hemp]
        rfl
      rw [if_pos hb] at h
      cases h
      exact Or.inr (Or.inl ⟨hm, hemp, rfl⟩)
    · have hb : ¬((removeRaw c name).members.isEmpty = true) := by
        intro hh
        exact hemp (List.isEmpty_iff.mp hh)
      rw [if_neg hb] at h
      rcases hd : distributePartitions (removeRaw c name) with _ | c2
      · rw [hd] at h
        dsimp only at h
        cases h
      · rw [hd] at h
        dsimp only at h
        cases h
        exact Or.inr (Or.inr ⟨hm, hemp, rfl⟩)
  · rw [if_neg hm] at h
    cases h
    exact Or.inl ⟨hm, rfl⟩

theorem remove_error_inv (c ce : Consistent) (name : String)
    (h : Remove c name = .error ce) :
    name ∈ c.members ∧ (removeRaw c name).members ≠ [] ∧
    distributePartitions (removeRaw c name) = none ∧
    ce = removeRaw c name := by
  unfold Remove at h
  by_cases hm : name ∈ c.members
  · rw [if_pos hm] at h
    dsimp only at h
    by_cases hemp : (removeRaw c name).members = []
    · have hb : (removeRaw c name).members.isEmpty = true := by
        rw [hemp]
        rfl
      rw [if_pos hb] at h
      cases h
    · have hb : ¬((removeRaw c name).members.isEmpty = true) := by
        intro hh
        exact hemp (List.isEmpty_iff.mp hh)
      rw [if_neg hb] at h
      rcases hd : distributePartitions (removeRaw c name) with _ | c2
      · rw [hd] at h
        dsimp only at h
        cases h
        exact ⟨hm, hemp, rfl, rfl⟩
      · rw [hd] at h
        dsimp only at h
        cases h
  · rw [if_neg hm] at h
    cases h

theorem reachable_goodState (c : Consistent) (h : Reachable c) : GoodState c := by
  induction h with
  | new ms cfg c hnew =>
    cases ms with
    | none =>
      have h2 : some (emptyInstance cfg) = some c := hnew
      cases h2
      exact goodState_emptyInstance cfg
    | some l =>
      have h2 : distributePartitions (l.foldl addRaw (emptyInstance cfg))
          = some c := hnew
      obtain ⟨hnd, hri, hpc⟩ := foldl_addRaw_static l (emptyInstance cfg)
        List.nodup_nil (ringInv_emptyInstance cfg) rfl
      exact goodState_of_pass _ _ hnd hri hpc h2
  | add c c' m hr ha ih =>
    rcases addMember_ok_inv c c' m ha with ⟨hm, rfl⟩ | ⟨hm, hd⟩
    · exact ih
    · obtain ⟨hnd, hpc, hri, _, _⟩ := ih
      exact goodState_of_pass (addRaw c m) c' (memberAdd_nodup _ _ hnd)
        (ringInv_addRaw c m hri) hpc hd
  | remove c c' name hr hrem ih =>
    rcases remove_ok_inv c c' name hrem with ⟨hm, rfl⟩ | ⟨hm, hemp, rfl⟩ |
      ⟨hm, hne, hd⟩
    · exact ih
    · obtain ⟨hnd, hpc, hri, _, _⟩ := ih
      refine ⟨List.Nodup.filter _ hnd, hpc, ?_, fun _ => rfl, ?_⟩
      · exact ringInv_removeRaw c name hri
      · intro hme
        exact absurd hemp hme
    · obtain ⟨hnd, hpc, hri, _, _⟩ := ih
      exact goodState_of_pass (removeRaw c name) c'
        (List.Nodup.filter _ hnd) (ringInv_removeRaw c name hri) hpc hd

theorem avgLoadCap_le_realCap (p m : Nat) (f : ℚ)
    (h1 : 1 ≤ avgLoadCap p m f) :
    avgLoadCap p m f ≤ ⌈((p : ℚ) / (m : ℚ)) * f⌉ := by
  rw [avgLoadCap_eq] at h1 ⊢
  have hx : (0 : ℚ) < ((p / m : Nat) : ℚ) * f := by
    by_contra hle
    push_neg at hle
    have hcc := Int.ceil_le_ceil (α := ℚ) hle
    rw [Int.ceil_zero] at hcc
    omega
  have hf : 0 < f := by
    rcases lt_trichotomy f 0 with hlt | heq | hgt
    · exfalso
      have hnn : (0 : ℚ) ≤ ((p / m : Nat) : ℚ) := Nat.cast_nonneg _
      have := mul_nonpos_of_nonneg_of_nonpos hnn (le_of_lt hlt)
      linarith
    · rw [heq] at hx
      simp at hx
    · exact hgt
  apply Int.ceil_le_ceil
  apply mul_le_mul_of_nonneg_right _ (le_of_lt hf)
  exact Nat.cast_div_le

theorem exists_pos_load (members : List String) (loads : List (String × Nat))
    (p : Nat) (h4 : (members.map (fun n => getLoad loads n)).sum = p)
    (hP : p ≠ 0) : ∃ n0, getLoad loads n0 ≠ 0 := by
  by_contra hno
  push_neg at hno
  have : (members.map (fun n => getLoad loads n)).sum = 0 := by
    apply List.sum_eq_zero
    intro x hx
    rcases List.mem_map.mp hx with ⟨n, _, hn⟩
    rw [← hn]
    exact hno n
  rw [h4] at this
  exact hP this

/-- C1: for every reachable instance with a non-empty member set (so after
every successful construction, Add or Remove), the load recorded for each
member in the installed load map, and the number of partitions mapped to
that member in the partition table, are at most
`⌈(P / memberCount) * F⌉` (real division), where `memberCount` is the
member count at the time of the installing distribution pass (which is the
current member count). -/
theorem C1_load_bounded (c : Consistent) (hre : Reachable c)
    (hne : c.members ≠ []) (name : String) :
    (getLoad c.loads name : ℤ)
      ≤ ⌈((c.config.partitionCount : ℚ) / (c.members.length : ℚ))
          * c.config.loadFactor⌉ ∧
    (countOwned c.partitions name : ℤ)
      ≤ ⌈((c.config.partitionCount : ℚ) / (c.members.length : ℚ))
          * c.config.loadFactor⌉ := by
  obtain ⟨hnd, hpc, hri, hemp, hfull⟩ := reachable_goodState c hre
  obtain ⟨h1, h2, h3, h4, h5⟩ := hfull hne
  have hcnt := h3 name
  by_cases hP : c.partitionCount = 0
  · have hnone : ∀ i, mapGet c.partitions i = none := by
      intro i
      apply Option.not_isSome_iff_eq_none.mp
      intro hsme
      have := (h1 i).mp hsme
      omega
    have hz : getLoad c.loads name = 0 := by
      rw [hcnt, parts_nil_of_all_none _ hnone, countOwned_nil]
    have hcap0 : (0 : ℤ)
        ≤ ⌈((c.config.partitionCount : ℚ) / (c.members.length : ℚ))
            * c.config.loadFactor⌉ := by
      rw [← hpc, hP]
      simp
    constructor
    · rw [hz]; exact hcap0
    · rw [← hcnt, hz]; exact hcap0
  · obtain ⟨n0, hn0⟩ := exists_pos_load c.members c.loads c.partitionCount h4 hP
    have havg1 : 1 ≤ avgLoadCap c.partitionCount c.members.length
        c.config.loadFactor := by
      have := h5 n0
      omega
    have hchain := avgLoadCap_le_realCap c.partitionCount c.members.length
      c.config.loadFactor havg1
    constructor
    · rw [← hpc]
      exact le_trans (h5 name) hchain
    · rw [← hpc, ← hcnt]
      exact le_trans (h5 name) hchain

/-- C3: after any sequence of Add/Remove operations that leaves the member
set non-empty and completes without a capacity failure, every partition
index in `[0, P)` has exactly one owner (the table is a map, so a
defined entry is unique) and that owner is a member, and the loads of all
members sum to `P`. -/
theorem C3_table_total_and_sum (c : Consistent) (hre : Reachable c)
    (hne : c.members ≠ []) :
    (∀ i, i < c.config.partitionCount →
      ∃ n, mapGet c.partitions i = some n ∧ n ∈ c.members) ∧
    ((c.members.map (fun n => getLoad c.loads n)).sum
      = c.config.partitionCount) := by
  obtain ⟨hnd, hpc, hri, hemp, hfull⟩ := reachable_goodState c hre
  obtain ⟨h1, h2, h3, h4, h5⟩ := hfull hne
  constructor
  · intro i hi
    have hs : (mapGet c.partitions i).isSome := (h1 i).mpr (by omega)
    obtain ⟨n, hn⟩ := Option.isSome_iff_exists.mp hs
    exact ⟨n, hn, h2 i n hn⟩
  · rw [← hpc]
    exact h4

/-- C2 (amended): for every reachable instance with a non-empty member set,
AverageLoad() returns exactly `⌈⌊P / memberCount⌋ * F⌉` — the partition
count divided by the member count with integer division before the load
factor is applied — and this same value is the cap that bounds every load
installed by the distribution algorithm. -/
theorem C2_amended_averageLoad (c : Consistent) (hre : Reachable c)
    (hne : c.members ≠ []) :
    AverageLoad c
      = some ⌈((c.config.partitionCount / c.members.length : Nat) : ℚ)
          * c.config.loadFactor⌉ ∧
    ∀ name, (getLoad c.loads name : ℤ)
      ≤ ⌈((c.config.partitionCount / c.members.length : Nat) : ℚ)
          * c.config.loadFactor⌉ := by
  obtain ⟨hnd, hpc, hri, hemp, hfull⟩ := reachable_goodState c hre
  obtain ⟨h1, h2, h3, h4, h5⟩ := hfull hne
  have hml : ¬(c.members.length = 0) := by
    intro hh
    exact hne (List.length_eq_zero.mp hh)
  constructor
  · unfold AverageLoad
    rw [if_neg hml, avgLoadCap_eq, hpc]
  · intro name
    have := h5 name
    rw [avgLoadCap_eq, hpc] at this
    exact this

/-- C4 (amended): when a mutation (Add or Remove) hits the
capacity-exhaustion failure during distribution, the failure occurs before
any new partition table or load map is installed and the previously
installed partition table and load map are untouched; however, the ring,
sorted point set and member registry mutations performed before the
distribution pass do persist in the aborted state. -/
theorem C4_amended_abort_keeps_table (c ce : Consistent) (name : String) :
    (AddMember c name = .error ce →
      ce.partitions = c.partitions ∧ ce.loads = c.loads) ∧
    (Remove c name = .error ce →
      ce.partitions = c.partitions ∧ ce.loads = c.loads) := by
  constructor
  · intro h
    obtain ⟨_, _, hce⟩ := addMember_error_inv c ce name h
    subst hce
    exact ⟨rfl, rfl⟩
  · intro h
    obtain ⟨_, _, _, hce⟩ := remove_error_inv c ce name h
    subst hce
    exact ⟨rfl, rfl⟩

/-- C5 (amended): the forward walk of `distributeWithLoad` is bounded by
the ring size — it visits at most `n − 1` of the `n` ring points — and when
the capacity failure is raised, every member owning one of the `n − 1`
visited ring points (positions `idx, idx+1, …` cyclically) is already at
the cap. The member owning the single unvisited ring point may still be
under the cap when the failure fires. -/
theorem C5_amended_walk (c : Consistent) (partID idx : Nat)
    (parts : List (Nat × String)) (loads : List (String × Nat)) (avg : ℤ)
    (havg : AverageLoad c = some avg)
    (hidx : idx < c.sortedSet.length)
    (hring : ∀ pt ∈ c.sortedSet, (mapGet c.ring pt).isSome)
    (hfail : distributeWithLoad c partID idx parts loads = none) :
    ∀ k < c.sortedSet.length - 1, ∀ name,
      mapGet c.ring (c.sortedSet.getD ((idx + k) % c.sortedSet.length) 0)
        = some name →
      avg < (getLoad loads name : ℤ) + 1 := by
  intro k hk name hname
  unfold distributeWithLoad at hfail
  rw [havg] at hfail
  dsimp only at hfail
  exact dwlAux_none_spec c.sortedSet c.ring avg partID hring _ idx parts loads
    hidx hfail k hk name hname

/-- C7: Add is idempotent on member names — a second Add of an
already-registered name returns leaving every field of the state exactly as
it was (no ring mutation, no redistribution). -/
theorem C7_add_idempotent (c c' : Consistent) (m : String)
    (h : AddMember c m = .ok c') : AddMember c' m = .ok c' := by
  have hmem : m ∈ c'.members := by
    rcases addMember_ok_inv c c' m h with ⟨hm, rfl⟩ | ⟨hm, hd⟩
    · exact hm
    · obtain ⟨_, _, _, _, _, hmems, _⟩ := distributePartitions_some _ _ hd
      rw [hmems]
      exact (mem_memberAdd _ _ _).mpr (Or.inl rfl)
  unfold AddMember
  rw [if_pos hmem]

/-- C8 (amended): Remove with an unknown name changes no state; Remove of
the last remaining member resets the partition table to empty without
running distribution (the load map is left as it was), and afterwards every
GetPartitionOwner call reports absent, and every LocateKey call reports
absent provided the configured partition count is positive (with a zero
partition count LocateKey faults on its modulo, rather than reporting
absent). -/
theorem C8_amended_remove_last (c : Consistent) (name : String) :
    (name ∉ c.members → Remove c name = .ok c) ∧
    (c.members = [name] →
      ∃ c', Remove c name = .ok c' ∧ c'.partitions = [] ∧ c'.loads = c.loads ∧
        (∀ pid, GetPartitionOwner c' pid = none) ∧
        (0 < c.partitionCount → ∀ key, LocateKey c' key = some none)) := by
  constructor
  · intro hm
    unfold Remove
    rw [if_neg hm]
  · intro hms
    have hm : name ∈ c.members := by
      rw [hms]
      exact List.mem_cons_self _ _
    have hemp : (removeRaw c name).members = [] := by
      show c.members.filter (fun x => !(decide (x = name))) = []
      rw [hms]
      simp
    refine ⟨{ removeRaw c name with partitions := [] }, ?_, rfl, rfl, ?_, ?_⟩
    · unfold Remove
      rw [if_pos hm]
      dsimp only
      rw [if_pos (by rw [hemp]; rfl)]
    · intro pid
      exact mapGet_nil pid
    · intro hP key
      unfold LocateKey FindPartitionID
      rw [if_neg (by
        have hsame : ({ removeRaw c name with partitions := [] } :
          Consistent).partitionCount = c.partitionCount := rfl
        rw [hsame]
        omega)]
      rw [Option.map_some']
      unfold GetPartitionOwner
      rw [mapGet_nil]

/-- C10 (amended): AverageLoad on an instance with an empty member set
faults (division by zero on the member count); New with a non-nil empty
member slice faults during the initial distribution pass whenever the
configured partition count is positive (with zero partitions the partition
loop body never runs and construction succeeds); New with a nil member
slice always succeeds and returns the empty instance. -/
theorem C10_amended_empty_construction (cfg : Config) (c : Consistent)
    (hc : c.members = []) :
    AverageLoad c = none ∧
    (0 < cfg.partitionCount → New (some []) cfg = none) ∧
    (New none cfg = some (emptyInstance cfg) ∧
      (emptyInstance cfg).members = [] ∧
      (emptyInstance cfg).partitions = []) := by
  refine ⟨?_, ?_, rfl, rfl, rfl⟩
  · unfold AverageLoad
    rw [if_pos (by rw [hc]; rfl)]
  · intro hP
    have hne : New (some []) cfg
        = distributePartitions (emptyInstance cfg) := rfl
    rw [hne]
    unfold distributePartitions
    have hall : distributeAll (emptyInstance cfg) = none := by
      unfold distributeAll
      have hpc : (emptyInstance cfg).partitionCount = cfg.partitionCount := rfl
      rw [hpc]
      obtain ⟨k, hk⟩ : ∃ k, cfg.partitionCount = k + 1 :=
        ⟨cfg.partitionCount - 1, by omega⟩
      rw [hk, List.range_succ_eq_map, List.foldlM_cons]
      have hstep : distributeStep (emptyInstance cfg) ([], []) 0 = none := rfl
      rw [hstep]
      rfl
    rw [hall]
    rfl

/-- A state with its partition table and load map replaced (the fields a
distribution pass installs). -/
def withPL (c : Consistent) (p : List (Nat × String))
    (l : List (String × Nat)) : Consistent :=
  { c with partitions := p, loads := l }

theorem Consistent.ext2 (a b : Consistent) (h1 : a.config = b.config)
    (h2 : a.hasher = b.hasher) (h3 : a.sortedSet = b.sortedSet)
    (h4 : a.partitionCount = b.partitionCount) (h5 : a.loads = b.loads)
    (h6 : a.members = b.members) (h7 : a.partitions = b.partitions)
    (h8 : a.ring = b.ring) : a = b := by
  cases a
  cases b
  cases h1
  cases h2
  cases h3
  cases h4
  cases h5
  cases h6
  cases h7
  cases h8
  rfl

theorem addRaw_parts_loads (c : Consistent) (m : String)
    (p : List (Nat × String)) (l : List (String × Nat)) :
    addRaw (withPL c p l) m = withPL (addRaw c m) p l := rfl

theorem distributePartitions_parts_loads (c : Consistent)
    (p : List (Nat × String)) (l : List (String × Nat)) :
    distributePartitions (withPL c p l) = distributePartitions c := by
  cases c
  rfl

theorem foldl_addRaw_parts_loads (ms : List String) (c : Consistent)
    (p : List (Nat × String)) (l : List (String × Nat)) :
    ms.foldl addRaw (withPL c p l) = withPL (ms.foldl addRaw c) p l := by
  induction ms generalizing c with
  | nil => rfl
  | cons m t ih =>
    rw [List.foldl_cons, List.foldl_cons, addRaw_parts_loads, ih]

theorem foldlM_addMember_spec (ms : List String) :
    ∀ (c c2 : Consistent), ms.Nodup → (∀ m ∈ ms, m ∉ c.members) →
      ms.foldlM AddMember c = .ok c2 →
      (ms = [] ∧ c2 = c) ∨
      (ms ≠ [] ∧ distributePartitions (ms.foldl addRaw c) = some c2) := by
  induction ms with
  | nil =>
    intro c c2 _ _ h
    have h2 : (Except.ok c : Except Consistent Consistent) = .ok c2 := h
    cases h2
    exact Or.inl ⟨rfl, rfl⟩
  | cons m t ih =>
    intro c c2 hnd hnotin h
    rw [List.foldlM_cons] at h
    cases ha : AddMember c m with
    | error ce =>
      rw [ha] at h
      cases h
    | ok c1 =>
      rw [ha] at h
      have hbind : t.foldlM AddMember c1 = .ok c2 := h
      have hm : m ∉ c.members := hnotin m (List.mem_cons_self _ _)
      rcases addMember_ok_inv c c1 m ha with ⟨hmm, _⟩ | ⟨_, hd⟩
      · exact absurd hmm hm
      · obtain ⟨_, hcfg, hhash, hss, hpcnt, hmems, hring⟩ :=
          distributePartitions_some _ _ hd
        have hc1 : c1 = withPL (addRaw c m) c1.partitions c1.loads :=
          Consistent.ext2 _ _ hcfg hhash hss hpcnt rfl hmems rfl hring
        have hnotin' : ∀ m' ∈ t, m' ∉ c1.members := by
          intro m' hm' hmem'
          rw [hmems] at hmem'
          rcases (mem_memberAdd _ _ _).mp hmem' with hh | hh
          · rw [hh] at hm'
            exact (List.nodup_cons.mp hnd).1 hm'
          · exact hnotin m' (List.mem_cons_of_mem _ hm') hh
        rcases ih c1 c2 (List.nodup_cons.mp hnd).2 hnotin' hbind with
          ⟨ht, hc2⟩ | ⟨ht, hd2⟩
        · subst ht
          subst hc2
          refine Or.inr ⟨by simp, ?_⟩
          rw [List.foldl_cons, List.foldl_nil]
          exact hd
        · refine Or.inr ⟨by simp, ?_⟩
          rw [List.foldl_cons]
          rw [hc1, foldl_addRaw_parts_loads, distributePartitions_parts_loads]
            at hd2
          exact hd2

/-- C9: determinism of construction — the partition table depends only on
the configuration, the hasher and the members added in order. Building an
instance with New over a member list, and building one from an empty New
followed by Add of each of the same (distinct) members in the same order,
produce identical partition tables whenever both routes complete. Two
instances constructed the same way are therefore identical. -/
theorem C9_deterministic_construction (ms : List String) (cfg : Config)
    (c1 c2 : Consistent) (hnd : ms.Nodup)
    (h1 : New (some ms) cfg = some c1)
    (h2 : ms.foldlM AddMember (emptyInstance cfg) = .ok c2) :
    c1.partitions = c2.partitions := by
  have h1' : distributePartitions (ms.foldl addRaw (emptyInstance cfg))
      = some c1 := h1
  rcases foldlM_addMember_spec ms (emptyInstance cfg) c2 hnd
      (by
        intro m hm hmem
        exact absurd hmem (by simp [emptyInstance])) h2 with
    ⟨hms, hc2⟩ | ⟨hms, hd⟩
  · subst hms
    subst hc2
    have hg := goodState_of_pass (emptyInstance cfg) c1 List.nodup_nil
      (ringInv_emptyInstance cfg) rfl h1'
    obtain ⟨_, _, _, hempt, _⟩ := hg
    obtain ⟨_, _, _, _, _, hmem, _⟩ := distributePartitions_some _ _ h1'
    rw [hempt (by rw [hmem]; rfl)]
    rfl
  · rw [h1'] at hd
    cases hd
    rfl

theorem getD_eq_get (l : List Nat) (i : Nat) (h : i < l.length) :
    l.getD i 0 = l.get ⟨i, h⟩ := by
  rw [List.getD_eq_getElem?_getD, List.getElem?_eq_getElem h]
  rfl

theorem foldl_idmap_preserve (hash : String → Nat) (t : List String) :
    ∀ (acc : List (Nat × String)) (name : String),
      mapGet acc (hash name) = some name →
      (∀ b ∈ t, hash b = hash name → b = name) →
      mapGet (t.foldl (fun m nm => mapInsert m (hash nm) nm) acc) (hash name)
        = some name := by
  induction t with
  | nil =>
    intro acc name h _
    exact h
  | cons x t ih =>
    intro acc name h hinj
    rw [List.foldl_cons]
    apply ih
    · rw [mapGet_insert]
      by_cases hk : hash name = hash x
      · rw [if_pos hk, hinj x (List.mem_cons_self _ _) hk.symm]
      · rw [if_neg hk]
        exact h
    · intro b hb
      exact hinj b (List.mem_cons_of_mem _ hb)

theorem foldl_idmap_get_of_mem (hash : String → Nat) (l : List String) :
    ∀ (acc : List (Nat × String)) (name : String), name ∈ l →
      (∀ b ∈ l, hash b = hash name → b = name) →
      mapGet (l.foldl (fun m nm => mapInsert m (hash nm) nm) acc) (hash name)
        = some name := by
  induction l with
  | nil =>
    intro acc name h _
    cases h
  | cons x t ih =>
    intro acc name hmem hinj
    rw [List.foldl_cons]
    rcases List.mem_cons.mp hmem with rfl | hmt
    · apply foldl_idmap_preserve
      · rw [mapGet_insert, if_pos rfl]
      · intro b hb hbh
        exact hinj b (List.mem_cons_of_mem _ hb) hbh
    · exact ih _ name hmt (fun b hb => hinj b (List.mem_cons_of_mem _ hb))

theorem foldl_idmap_sound (hash : String → Nat) (l : List String) :
    ∀ (acc : List (Nat × String)) (k : Nat) (n : String),
      mapGet (l.foldl (fun m nm => mapInsert m (hash nm) nm) acc) k = some n →
      (n ∈ l ∧ hash n = k) ∨ mapGet acc k = some n := by
  induction l with
  | nil =>
    intro acc k n h
    exact Or.inr h
  | cons x t ih =>
    intro acc k n h
    rw [List.foldl_cons] at h
    rcases ih _ k n h with ⟨h1, h2⟩ | h2
    · exact Or.inl ⟨List.mem_cons_of_mem _ h1, h2⟩
    · rw [mapGet_insert] at h2
      by_cases hk : k = hash x
      · rw [if_pos hk] at h2
        cases h2
        exact Or.inl ⟨List.mem_cons_self _ _, hk.symm⟩
      · rw [if_neg hk] at h2
        exact Or.inr h2

theorem walk_mod_inj (len idx x y : Nat) (hx : x < len) (hy : y < len)
    (heq : (idx + x) % len = (idx + y) % len) : x = y := by
  have h1 : x ≡ y [MOD len] := Nat.ModEq.add_left_cancel' idx heq
  have h2 : x % len = y % len := h1
  rw [Nat.mod_eq_of_lt hx, Nat.mod_eq_of_lt hy] at h2
  exact h2

theorem collectBackups_eq (keys : List Nat) (kmems : List (Nat × String))
    (hsome : ∀ k ∈ keys, (mapGet kmems k).isSome) :
    ∀ (n idx : Nat), idx < keys.length →
      collectBackups keys kmems idx n
        = some ((List.range n).map (fun j =>
            (mapGet kmems
              (keys.getD ((idx + j + 1) % keys.length) 0)).getD "")) := by
  intro n
  induction n with
  | zero =>
    intro idx _
    rfl
  | succ n ih =>
    intro idx hidx
    have hlen : 0 < keys.length := by omega
    have hmod : (if keys.length ≤ idx + 1 then 0 else idx + 1)
        = (idx + 1) % keys.length := by
      by_cases hb : keys.length ≤ idx + 1
      · rw [if_pos hb]
        have hvv : idx + 1 = keys.length := by omega
        rw [hvv, Nat.mod_self]
      · rw [if_neg hb, Nat.mod_eq_of_lt (by omega)]
    have hidx1 : (idx + 1) % keys.length < keys.length := Nat.mod_lt _ hlen
    rw [collectBackups, hmod]
    have hget : keys.get? ((idx + 1) % keys.length)
        = some (keys.get ⟨(idx + 1) % keys.length, hidx1⟩) :=
      List.get?_eq_get hidx1
    rw [hget]
    dsimp only
    have hksome := hsome _ (List.get_mem keys _ hidx1)
    obtain ⟨nm, hnm⟩ := Option.isSome_iff_exists.mp hksome
    rw [hnm]
    dsimp only
    rw [ih ((idx + 1) % keys.length) hidx1, Option.map_some']
    congr 1
    rw [List.range_succ_eq_map, List.map_cons, List.map_map]
    congr 1
    · rw [show idx + 0 + 1 = idx + 1 from rfl,
        getD_eq_get keys _ hidx1, hnm]
      rfl
    · apply List.map_congr_left
      intro j _
      have hpos : ((idx + 1) % keys.length + j + 1) % keys.length
          = (idx + Nat.succ j + 1) % keys.length := by
        rw [show (idx + 1) % keys.length + j + 1
            = (idx + 1) % keys.length + (j + 1) from by omega,
          Nat.mod_add_mod]
        congr 1
        omega
      rw [Function.comp_apply, hpos]

theorem getPartitionBackups_unfold (c : Consistent) (partID n : Nat)
    (ownerName : String)
    (hle : ¬((n : ℤ) > (c.members.length : ℤ) - 1))
    (hown : GetPartitionOwner c partID = some ownerName)
    (hmem : ownerName ∈ c.members) :
    GetPartitionBackups c partID n
      = (collectBackups (identityKeys c) (identityMap c)
          ((identityKeys c).findIdx
            (fun k => decide (k = c.hasher (strBytes ownerName)))) n).map .ok := by
  unfold GetPartitionBackups
  rw [if_neg hle, hown]
  dsimp only
  rw [if_pos hmem]

/-- C6: for every partition id owned in the table of a reachable instance
and every backup count `n` (with the hasher injective on member names):
if `n ≤ memberCount − 1` then GetPartitionBackups returns exactly `n`
pairwise-distinct members, none equal to the owner; if
`n > memberCount − 1` it returns the insufficient-member-count error, and
that check runs before any walk over the member cycle (it fires for any
partition id, owned or not). -/
theorem C6_backups (c : Consistent) (partID n : Nat) (ownerName : String)
    (hre : Reachable c)
    (hown : GetPartitionOwner c partID = some ownerName)
    (hinj : ∀ a ∈ c.members, ∀ b ∈ c.members,
      c.hasher (strBytes a) = c.hasher (strBytes b) → a = b) :
    ((n : ℤ) ≤ (c.members.length : ℤ) - 1 →
      ∃ l, GetPartitionBackups c partID n = some (.ok l) ∧ l.length = n ∧
        l.Nodup ∧ ownerName ∉ l ∧ ∀ x ∈ l, x ∈ c.members) ∧
    ((c.members.length : ℤ) - 1 < (n : ℤ) →
      GetPartitionBackups c partID n = some (.error ())) := by
  constructor
  · intro hn
    obtain ⟨hnd, hpc, hri, hemp, hfull⟩ := reachable_goodState c hre
    have hne : c.members ≠ [] := by
      intro hh
      unfold GetPartitionOwner at hown
      rw [hemp hh, mapGet_nil] at hown
      cases hown
    have hmemown : ownerName ∈ c.members := by
      obtain ⟨h1, h2, _, _, _⟩ := hfull hne
      exact h2 partID ownerName hown
    have hperm : (identityKeys c).Perm
        (c.members.map (fun name => c.hasher (strBytes name))) :=
      List.perm_insertionSort (· ≤ ·)
        (c.members.map (fun name => c.hasher (strBytes name)))
    have hknodup : (identityKeys c).Nodup := by
      rw [List.Perm.nodup_iff hperm]
      exact List.Nodup.map_on hinj hnd
    have hkeylen : (identityKeys c).length = c.members.length := by
      rw [List.Perm.length_eq hperm, List.length_map]
    have hkmem : c.hasher (strBytes ownerName) ∈ identityKeys c := by
      rw [List.Perm.mem_iff hperm]
      exact List.mem_map_of_mem _ hmemown
    have hex : ∃ x ∈ identityKeys c,
        (fun k => decide (k = c.hasher (strBytes ownerName))) x = true :=
      ⟨_, hkmem, by simp⟩
    have hidxlt := List.findIdx_lt_length_of_exists hex
    have hklen : 0 < (identityKeys c).length := by omega
    have hkidxval : (identityKeys c).get
        ⟨(identityKeys c).findIdx
          (fun k => decide (k = c.hasher (strBytes ownerName))), hidxlt⟩
        = c.hasher (strBytes ownerName) := by
      have hp := List.findIdx_get (w := hidxlt)
      simpa using hp
    have hsome : ∀ k ∈ identityKeys c, (mapGet (identityMap c) k).isSome := by
      intro k hk
      rw [List.Perm.mem_iff hperm] at hk
      rcases List.mem_map.mp hk with ⟨nm, hnm, hh⟩
      have hlook : mapGet (identityMap c) (c.hasher (strBytes nm)) = some nm :=
        foldl_idmap_get_of_mem (fun s => c.hasher (strBytes s)) c.members []
          nm hnm (fun b hb hbh => hinj b hb nm hnm hbh)
      rw [← hh, hlook]
      rfl
    have hfspec : ∀ pos, pos < (identityKeys c).length →
        ∃ nm, mapGet (identityMap c) ((identityKeys c).getD pos 0) = some nm ∧
          nm ∈ c.members ∧
          c.hasher (strBytes nm) = (identityKeys c).getD pos 0 := by
      intro pos hpos
      have hkey : (identityKeys c).getD pos 0 ∈ identityKeys c := by
        rw [getD_eq_get _ _ hpos]
        exact List.get_mem _ _ _
      obtain ⟨nm, hnm⟩ := Option.isSome_iff_exists.mp (hsome _ hkey)
      rcases foldl_idmap_sound (fun s => c.hasher (strBytes s)) c.members []
          _ nm hnm with ⟨hmem2, hhash2⟩ | habs
      · exact ⟨nm, hnm, hmem2, hhash2⟩
      · rw [mapGet_nil] at habs
        cases habs
    have hcoll := collectBackups_eq (identityKeys c) (identityMap c) hsome n
      ((identityKeys c).findIdx
        (fun k => decide (k = c.hasher (strBytes ownerName)))) hidxlt
    have hunf := getPartitionBackups_unfold c partID n ownerName (by omega)
      hown hmemown
    rw [hcoll, Option.map_some'] at hunf
    refine ⟨_, hunf, by simp, ?_, ?_, ?_⟩
    · -- Nodup
      apply List.Nodup.map_on _ (List.nodup_range n)
      intro j1 hj1 j2 hj2 hfeq
      rw [List.mem_range] at hj1 hj2
      have hp1 : ((identityKeys c).findIdx
          (fun k => decide (k = c.hasher (strBytes ownerName))) + j1 + 1)
          % (identityKeys c).length < (identityKeys c).length :=
        Nat.mod_lt _ hklen
      have hp2 : ((identityKeys c).findIdx
          (fun k => decide (k = c.hasher (strBytes ownerName))) + j2 + 1)
          % (identityKeys c).length < (identityKeys c).length :=
        Nat.mod_lt _ hklen
      obtain ⟨nm1, hnm1, hm1, hh1⟩ := hfspec _ hp1
      obtain ⟨nm2, hnm2, hm2, hh2⟩ := hfspec _ hp2
      rw [hnm1, hnm2] at hfeq
      simp only [Option.getD_some] at hfeq
      subst hfeq
      rw [hh1] at hh2
      have hgeteq : (identityKeys c).get ⟨_, hp1⟩
          = (identityKeys c).get ⟨_, hp2⟩ := by
        rw [← getD_eq_get _ _ hp1, ← getD_eq_get _ _ hp2, hh2]
      have hposeq := (List.Nodup.get_inj_iff hknodup).mp hgeteq
      have hposeq2 := Fin.mk.injEq _ _ _ _ ▸ hposeq
      have hjeq : j1 + 1 = j2 + 1 := by
        apply walk_mod_inj (identityKeys c).length
          ((identityKeys c).findIdx
            (fun k => decide (k = c.hasher (strBytes ownerName))))
          (j1 + 1) (j2 + 1) (by omega) (by omega)
        have ha1 : (identityKeys c).findIdx
            (fun k => decide (k = c.hasher (strBytes ownerName))) + (j1 + 1)
            = (identityKeys c).findIdx
              (fun k => decide (k = c.hasher (strBytes ownerName))) + j1 + 1 := by
          omega
        have ha2 : (identityKeys c).findIdx
            (fun k => decide (k = c.hasher (strBytes ownerName))) + (j2 + 1)
            = (identityKeys c).findIdx
              (fun k => decide (k = c.hasher (strBytes ownerName))) + j2 + 1 := by
          omega
        rw [ha1, ha2]
        exact congrArg Fin.val hposeq
      omega
    · -- owner not collected
      intro hmem3
      rcases List.mem_map.mp hmem3 with ⟨j, hj, hfj⟩
      rw [List.mem_range] at hj
      have hpj : ((identityKeys c).findIdx
          (fun k => decide (k = c.hasher (strBytes ownerName))) + j + 1)
          % (identityKeys c).length < (identityKeys c).length :=
        Nat.mod_lt _ hklen
      obtain ⟨nm, hnm, hm2, hh2⟩ := hfspec _ hpj
      rw [hnm] at hfj
      simp only [Option.getD_some] at hfj
      rw [hfj] at hh2
      have hgeteq : (identityKeys c).get ⟨_, hpj⟩
          = (identityKeys c).get ⟨_, hidxlt⟩ := by
        rw [← getD_eq_get _ _ hpj, hkidxval]
        exact hh2.symm
      have hposeq := (List.Nodup.get_inj_iff hknodup).mp hgeteq
      have hposval := congrArg Fin.val hposeq
      have hzero : ((identityKeys c).findIdx
          (fun k => decide (k = c.hasher (strBytes ownerName))) + 0)
          % (identityKeys c).length
          = (identityKeys c).findIdx
            (fun k => decide (k = c.hasher (strBytes ownerName))) := by
        rw [Nat.add_zero, Nat.mod_eq_of_lt hidxlt]
      have hj1 : j + 1 = 0 := by
        apply walk_mod_inj (identityKeys c).length
          ((identityKeys c).findIdx
            (fun k => decide (k = c.hasher (strBytes ownerName))))
          (j + 1) 0 (by omega) (by omega)
        rw [hzero]
        have ha1 : (identityKeys c).findIdx
            (fun k => decide (k = c.hasher (strBytes ownerName))) + (j + 1)
            = (identityKeys c).findIdx
              (fun k => decide (k = c.hasher (strBytes ownerName))) + j + 1 := by
          omega
        rw [ha1]
        exact hposval
      omega
    · -- all collected are members
      intro x hx
      rcases List.mem_map.mp hx with ⟨j, hj, hfj⟩
      rw [List.mem_range] at hj
      have hpj : ((identityKeys c).findIdx
          (fun k => decide (k = c.hasher (strBytes ownerName))) + j + 1)
          % (identityKeys c).length < (identityKeys c).length :=
        Nat.mod_lt _ hklen
      obtain ⟨nm, hnm, hm2, hh2⟩ := hfspec _ hpj
      rw [hnm] at hfj
      simp only [Option.getD_some] at hfj
      subst hfj
      exact hm2
  · intro hgt
    unfold GetPartitionBackups
    rw [if_pos hgt]

/-- An integer form of the real-division capacity formula
`⌈(p / m) * f⌉` (division over ℚ), evaluable by kernel reduction;
`realCapInt_eq` relates it to the `⌈⌉` form. -/
def realCapInt (p m : Nat) (f : ℚ) : ℤ :=
  -(-((p : ℤ) * f.num) / ((m : ℤ) * (f.den : ℤ)))

theorem realCapInt_eq (p m : Nat) (f : ℚ) (hm : 0 < m) :
    realCapInt p m f = ⌈((p : ℚ) / (m : ℚ)) * f⌉ := by
  have hfd : ((f.den : ℕ) : ℚ) ≠ 0 := Nat.cast_ne_zero.mpr f.den_nz
  have hmq : ((m : ℕ) : ℚ) ≠ 0 := Nat.cast_ne_zero.mpr (by omega)
  have hfrac := Rat.num_div_den f
  have hmul : f * ((f.den : ℕ) : ℚ) = ((f.num : ℤ) : ℚ) := by
    calc f * ((f.den : ℕ) : ℚ)
        = ((f.num : ℚ) / (f.den : ℚ)) * ((f.den : ℕ) : ℚ) := by rw [hfrac]
      _ = ((f.num : ℤ) : ℚ) := div_mul_cancel₀ _ hfd
  have hx : -(((p : ℚ) / (m : ℚ)) * f)
      = (((-((p : ℤ) * f.num)) : ℤ) : ℚ) / (((m * f.den : ℕ) : ℕ) : ℚ) := by
    rw [eq_div_iff (Nat.cast_ne_zero.mpr (Nat.mul_ne_zero (by omega) f.den_nz))]
    push_cast
    have hkey : (p : ℚ) / (m : ℚ) * f * ((m : ℚ) * (f.den : ℚ))
        = (p : ℚ) * (f.num : ℚ) := by
      calc (p : ℚ) / (m : ℚ) * f * ((m : ℚ) * (f.den : ℚ))
          = ((p : ℚ) / (m : ℚ) * (m : ℚ)) * (f * ((f.den : ℕ) : ℚ)) := by ring
        _ = ((p : ℚ) / (m : ℚ) * (m : ℚ)) * (f.num : ℚ) := by rw [hmul]
        _ = (p : ℚ) * (f.num : ℚ) := by rw [div_mul_cancel₀ _ hmq]
    linear_combination -hkey
  have h2 : ⌊-(((p : ℚ) / (m : ℚ)) * f)⌋
      = (-((p : ℤ) * f.num)) / ((m * f.den : ℕ) : ℤ) := by
    rw [hx, Rat.floor_intCast_div_natCast]
  have h3 : ⌊-(((p : ℚ) / (m : ℚ)) * f)⌋ = -⌈((p : ℚ) / (m : ℚ)) * f⌉ :=
    Int.floor_neg
  have h4 : ((m * f.den : ℕ) : ℤ) = (m : ℤ) * (f.den : ℤ) := by push_cast; ring
  unfold realCapInt
  rw [← h4]
  omega

/-- The rational 5/4 as an explicit literal (kernel-evaluable fields). -/
def F54 : ℚ := ⟨5, 4, by decide, by decide⟩

/-- The rational 1 as an explicit literal (kernel-evaluable fields). -/
def F1 : ℚ := ⟨1, 1, by decide, by decide⟩

/-- Hash table for the three-member demo instance: members A, B, C with
replication factor 3, partition count 7, load factor 5/4 (the spec's
worked scenario shape). -/
def demoTable : List (Bytes × Nat) :=
  [ (strBytes "A0", 100), (strBytes "A1", 110), (strBytes "A2", 120),
    (strBytes "B0", 200), (strBytes "B1", 210), (strBytes "B2", 220),
    (strBytes "C0", 300), (strBytes "C1", 310), (strBytes "C2", 320),
    (leBytes8 0, 90), (leBytes8 1, 190), (leBytes8 2, 290),
    (leBytes8 3, 95), (leBytes8 4, 195), (leBytes8 5, 295), (leBytes8 6, 99),
    (strBytes "A", 1000), (strBytes "B", 2000), (strBytes "C", 3000) ]

def cfgDemo : Config :=
  { hasher := hashTable demoTable
    partitionCount := 7
    replicationFactor := 3
    loadFactor := F54 }

def cDemo : Consistent :=
  (New (some ["A", "B", "C"]) cfgDemo).getD (emptyInstance cfgDemo)

/-- The demo instance after a further successful Add of member D. -/
def cDemoD : Consistent := exceptState (AddMember cDemo "D")

/-- The demo instance built incrementally: empty New then Add A, B, C. -/
def cDemoInc : Consistent :=
  exceptState (["A", "B", "C"].foldlM AddMember (emptyInstance cfgDemo))

/-- Hash table for the C2 counterexample: P = 10, three members with one
ring point each, partitions spread 4/4/2. -/
def c2Table : List (Bytes × Nat) :=
  [ (strBytes "A0", 100), (strBytes "B0", 200), (strBytes "C0", 300),
    (leBytes8 0, 50), (leBytes8 1, 50), (leBytes8 2, 50), (leBytes8 3, 50),
    (leBytes8 4, 150), (leBytes8 5, 150), (leBytes8 6, 150),
    (leBytes8 7, 150), (leBytes8 8, 250), (leBytes8 9, 250) ]

def cfgC2 : Config :=
  { hasher := hashTable c2Table
    partitionCount := 10
    replicationFactor := 1
    loadFactor := F54 }

def c2x : Consistent :=
  (New (some ["A", "B", "C"]) cfgC2).getD (emptyInstance cfgC2)

/-- Hash table for the C4 counterexample: one member A (two ring points),
P = 3, F = 1; adding B makes the cap 1 and the pass must fail. -/
def c4Table : List (Bytes × Nat) :=
  [ (strBytes "A0", 10), (strBytes "A1", 20), (strBytes "B0", 30),
    (strBytes "B1", 40),
    (leBytes8 0, 1), (leBytes8 1, 2), (leBytes8 2, 3) ]

def cfgC4 : Config :=
  { hasher := hashTable c4Table
    partitionCount := 3
    replicationFactor := 2
    loadFactor := F1 }

def c4x : Consistent := (New (some ["A"]) cfgC4).getD (emptyInstance cfgC4)

/-- The state left behind by the aborted `Add "B"` on `c4x`. -/
def c4err : Consistent := exceptState (AddMember c4x "B")

/-- Hash table for the C5 counterexample: members A and B with one ring
point each, P = 2, F = 1, both partitions' keys ahead of A's point. -/
def c5Table : List (Bytes × Nat) :=
  [ (strBytes "A0", 10), (strBytes "B0", 20),
    (leBytes8 0, 5), (leBytes8 1, 5) ]

def cfgC5 : Config :=
  { hasher := hashTable c5Table
    partitionCount := 2
    replicationFactor := 1
    loadFactor := F1 }

/-- The C5 scenario state: ring `[10 ↦ A, 20 ↦ B]`, partition 0 already
given to A (load 1 = cap); distributing partition 1 walks only
`n − 1 = 1` point (A's) and panics although B is still under the cap. -/
def c5state : Consistent :=
  { config := cfgC5
    hasher := hashTable c5Table
    sortedSet := [10, 20]
    partitionCount := 2
    loads := [("A", 1)]
    members := ["A", "B"]
    partitions := [(0, "A")]
    ring := [(10, "A"), (20, "B")] }

/-- Hash table and config for the P = 0 scenarios (C8, C10). -/
def c8Table : List (Bytes × Nat) := [(strBytes "A0", 10), (strBytes "k", 77)]

def cfgC8 : Config :=
  { hasher := hashTable c8Table
    partitionCount := 0
    replicationFactor := 1
    loadFactor := F1 }

def c8x : Consistent := (New (some ["A"]) cfgC8).getD (emptyInstance cfgC8)

/-- C2 (counterexample): the constructed instance `c2x` (P = 10, three
members, F = 5/4) has `AverageLoad = 4`, while
`⌈(P / memberCount) * F⌉` with real division is `5`: AverageLoad does not
return the claimed real-division value. -/
theorem C2_counterexample :
    (New (some ["A", "B", "C"]) cfgC2).isSome = true ∧
    AverageLoad c2x = some 4 ∧
    ⌈((c2x.partitionCount : ℚ) / (c2x.members.length : ℚ))
        * c2x.config.loadFactor⌉ = 5 ∧
    ((4 : ℤ) ≠ 5) := by
  refine ⟨by decide, by decide, ?_, by decide⟩
  have h1 : c2x.partitionCount = 10 := by decide
  have h2 : c2x.members.length = 3 := by decide
  have h3 : c2x.config.loadFactor = F54 := by decide
  rw [h1, h2, h3, ← realCapInt_eq 10 3 F54 (by decide)]
  decide

/-- C4 (counterexample): the aborted `Add "B"` on `c4x` (capacity
exhaustion) leaves the previous partition table installed but has already
registered B and mutated the ring, so new state of the ring/registry kind
is installed by the aborted mutation. -/
theorem C4_counterexample :
    (AddMember c4x "B").toOption.isSome = false ∧
    (exceptState (AddMember c4x "B")).members = ["B", "A"] ∧
    c4x.members = ["A"] ∧
    ¬((exceptState (AddMember c4x "B")).ring = c4x.ring) ∧
    (exceptState (AddMember c4x "B")).partitions = c4x.partitions := by
  decide

/-- C5 (counterexample): distributing partition 1 of `c5state` fails with
the capacity panic although ring point 20 belongs to member B whose load
(0) is strictly under the cap (1): the failure is raised after `n − 1`
visits, before a full cycle over all `n` ring points. -/
theorem C5_counterexample :
    distributeWithLoad c5state 1 0 [(0, "A")] [("A", 1)] = none ∧
    20 ∈ c5state.sortedSet ∧
    mapGet c5state.ring 20 = some "B" ∧
    AverageLoad c5state = some 1 ∧
    (getLoad [("A", 1)] "B" : ℤ) + 1 ≤ 1 ∧
    (distributePartitions c5state).isSome = false ∧
    (New (some ["A", "B"]) cfgC5).isSome = false := by
  decide

/-- C8 (counterexample): with partition count 0, after removing the last
member the partition table is empty and yet `LocateKey` does not report
absent — it faults on the modulo by zero (modelled `none`, where reporting
absent would be `some none`). -/
theorem C8_counterexample :
    (New (some ["A"]) cfgC8).isSome = true ∧
    (Remove c8x "A").toOption.isSome = true ∧
    (exceptState (Remove c8x "A")).partitions = [] ∧
    LocateKey (exceptState (Remove c8x "A")) (strBytes "k") = none := by
  decide

/-- C10 (counterexample): New with a non-nil empty member slice succeeds
when the configured partition count is zero, contradicting the claim that
it always fails during the initial distribution pass. -/
theorem C10_counterexample :
    (New (some []) cfgC8).isSome = true := by
  decide

theorem C1_load_bounded_witness :
    cDemo.members ≠ [] ∧
    ((getLoad cDemo.loads "A" : ℤ)
        ≤ ⌈((cDemo.config.partitionCount : ℚ) / (cDemo.members.length : ℚ))
            * cDemo.config.loadFactor⌉ ∧
      (countOwned cDemo.partitions "A" : ℤ)
        ≤ ⌈((cDemo.config.partitionCount : ℚ) / (cDemo.members.length : ℚ))
            * cDemo.config.loadFactor⌉) :=
  ⟨by decide,
    C1_load_bounded cDemo
      (Reachable.new (some ["A", "B", "C"]) cfgDemo cDemo rfl) (by decide) "A"⟩

theorem C2_amended_averageLoad_witness :
    cDemo.members ≠ [] ∧
    (AverageLoad cDemo
        = some ⌈((cDemo.config.partitionCount / cDemo.members.length : Nat) : ℚ)
            * cDemo.config.loadFactor⌉ ∧
      ∀ name, (getLoad cDemo.loads name : ℤ)
        ≤ ⌈((cDemo.config.partitionCount / cDemo.members.length : Nat) : ℚ)
            * cDemo.config.loadFactor⌉) :=
  ⟨by decide,
    C2_amended_averageLoad cDemo
      (Reachable.new (some ["A", "B", "C"]) cfgDemo cDemo rfl) (by decide)⟩

theorem C3_table_total_and_sum_witness :
    cDemo.members ≠ [] ∧
    ((∀ i, i < cDemo.config.partitionCount →
        ∃ n, mapGet cDemo.partitions i = some n ∧ n ∈ cDemo.members) ∧
      ((cDemo.members.map (fun n => getLoad cDemo.loads n)).sum
        = cDemo.config.partitionCount)) :=
  ⟨by decide,
    C3_table_total_and_sum cDemo
      (Reachable.new (some ["A", "B", "C"]) cfgDemo cDemo rfl) (by decide)⟩

theorem C4_amended_abort_keeps_table_witness :
    AddMember c4x "B" = .error c4err ∧
    (c4err.partitions = c4x.partitions ∧ c4err.loads = c4x.loads) := by
  have hval : AddMember c4x "B" = .error c4err := rfl
  exact ⟨hval, (C4_amended_abort_keeps_table c4x c4err "B").1 hval⟩

theorem C5_amended_walk_witness :
    AverageLoad c5state = some 1 ∧
    distributeWithLoad c5state 1 0 [(0, "A")] [("A", 1)] = none ∧
    (1 : ℤ) < (getLoad [("A", 1)] "A" : ℤ) + 1 :=
  ⟨by decide, by decide,
    C5_amended_walk c5state 1 0 [(0, "A")] [("A", 1)] 1 (by decide) (by decide)
      (by decide) (by decide) 0 (by decide) "A" (by decide)⟩

theorem C6_backups_witness :
    GetPartitionOwner cDemo 0 = some "A" ∧
    (∃ l, GetPartitionBackups cDemo 0 2 = some (.ok l) ∧ l.length = 2 ∧
      l.Nodup ∧ "A" ∉ l ∧ ∀ x ∈ l, x ∈ cDemo.members) :=
  ⟨by decide,
    (C6_backups cDemo 0 2 "A"
      (Reachable.new (some ["A", "B", "C"]) cfgDemo cDemo rfl) (by decide)
      (by decide)).1 (by decide)⟩

theorem C7_add_idempotent_witness : AddMember cDemoD "D" = .ok cDemoD :=
  C7_add_idempotent cDemo cDemoD "D" rfl

theorem C8_amended_remove_last_witness :
    c4x.members = ["A"] ∧
    (∃ c', Remove c4x "A" = .ok c' ∧ c'.partitions = [] ∧
      c'.loads = c4x.loads ∧
      (∀ pid, GetPartitionOwner c' pid = none) ∧
      (0 < c4x.partitionCount → ∀ key, LocateKey c' key = some none)) :=
  ⟨by decide, (C8_amended_remove_last c4x "A").2 (by decide)⟩

theorem C9_deterministic_construction_witness :
    cDemo.partitions = cDemoInc.partitions :=
  C9_deterministic_construction ["A", "B", "C"] cfgDemo cDemo cDemoInc
    (by decide) rfl rfl

theorem C10_amended_empty_construction_witness :
    (emptyInstance cfgC4).members = [] ∧
    0 < cfgC4.partitionCount ∧
    New (some []) cfgC4 = none ∧
    AverageLoad (emptyInstance cfgC4) = none := by
  have h := C10_amended_empty_construction cfgC4 (emptyInstance cfgC4) rfl
  exact ⟨rfl, by decide, h.2.1 (by decide), h.1⟩
